import Mathlib

/-!
Verification development for a scalar reverse-mode automatic-differentiation
engine (`engine.py` of the tiny-autograd repository).

The engine builds a DAG of `Value` objects.  Each object carries a scalar
`data`, an accumulated gradient `grad`, the tuple `_children` of direct
inputs, an operation tag `_operation`, and a backward closure `_backward`
installed by the operation that produced it.  `Value.backward` collects the
reachable subgraph in DFS post-order (guarded by a `visited` set keyed by
object identity), seeds `self.grad = 1.0` and runs the stored closures in
reverse order.

We embed the engine with an arena: nodes live in a list, object identity is
the list index, and the stored closures are replayed by `localBackward`,
which dispatches on the operation tag and reproduces each closure's reads
and writes exactly (all quantities a closure captures — the forward `data`
of the output or of an operand, the exponent, the leak factor — are fields
of the arena, and `data` is never mutated, so reading the stored field is
the captured value).  Scalars are real numbers; the integer-exponent
instances of `__pow__` (the only ones the repository uses) are embedded
with `zpow`.
-/

namespace TinyAutograd

/-- Operation tag of a node, mirroring the `_operation` strings of
`engine.py` together with the constants the corresponding backward closure
captures (the exponent of `__pow__`, the leak factor of `leaky_relu`). -/
inductive Op where
  | leaf
  | linear
  | tanh
  | leakyRelu (alpha : ℝ)
  | relu
  | sigmoid
  | exp
  | add
  | mul
  | pow (p : ℤ)

/-- A `Value` object: forward scalar, accumulated gradient, direct inputs
(arena indices) and operation tag. -/
structure Node where
  data : ℝ
  grad : ℝ
  children : List Nat
  op : Op

/-- The arena of all constructed `Value` objects; an object's identity is
its index. -/
structure State where
  nodes : List Node

/-- Number of nodes constructed so far. -/
def size (s : State) : Nat := s.nodes.length

/-- Node stored at index `i` (an arbitrary default outside the arena). -/
def getNode (s : State) (i : Nat) : Node := s.nodes.getD i ⟨0, 0, [], Op.leaf⟩

/-- Forward value of node `i`. -/
def dataOf (s : State) (i : Nat) : ℝ := (getNode s i).data

/-- Accumulated gradient of node `i`. -/
def gradOf (s : State) (i : Nat) : ℝ := (getNode s i).grad

/-- Direct inputs of node `i`. -/
def childrenOf (s : State) (i : Nat) : List Nat := (getNode s i).children

/-- Operation tag of node `i`. -/
def opOf (s : State) (i : Nat) : Op := (getNode s i).op

/-- Overwrite the gradient of node `i` (used for the seed
`self.grad = 1.0`). -/
def updGrad (s : State) (i : Nat) (g : ℝ) : State :=
  ⟨s.nodes.set i { getNode s i with grad := g }⟩

/-- Accumulate into the gradient of node `i` (the `+=` of the closures). -/
def addGrad (s : State) (i : Nat) (d : ℝ) : State :=
  updGrad s i (gradOf s i + d)

/-- Replay of the `_backward` closure stored on node `i`, dispatching on the
operation tag.  Per-branch correspondence with `engine.py` (with `out` the
node `i` itself and `self`, `other` its children):

* leaf — `lambda: None`;
* linear — `self.grad += out.grad * 1.0`;
* tanh — `self.grad += out.grad * (1 - data ** 2)` with `data = out.data`;
* leaky_relu — `self.grad += out.grad * (1 if self.data > 0 else alpha)`;
* relu — `self.grad += out.grad * (data > 0)` with `data = out.data` and the
  boolean cast to `1`/`0`;
* sigmoid — `self.grad += out.grad * data * (1 - data)`, `data = out.data`;
* exp — `self.grad += out.grad * data`, `data = out.data`;
* add — `self.grad += out.grad * 1.0; other.grad += out.grad * 1.0`, the
  second read of `out.grad` taken from the state after the first update;
* mul — `self.grad += out.grad * other.data; other.grad += out.grad *
  self.data`, likewise sequential;
* pow — `self.grad += out.grad * power * self.data ** (power - 1)`.

A node whose children list does not fit its tag's arity keeps the state
unchanged; the constructors below never build such a node. -/
noncomputable def localBackward (s : State) (i : Nat) : State :=
  match (getNode s i).op, (getNode s i).children with
  | Op.leaf, _ => s
  | Op.linear, [c] => addGrad s c ((getNode s i).grad * 1)
  | Op.tanh, [c] =>
      addGrad s c ((getNode s i).grad * (1 - (getNode s i).data ^ 2))
  | Op.leakyRelu a, [c] =>
      addGrad s c ((getNode s i).grad * (if (getNode s c).data > 0 then 1 else a))
  | Op.relu, [c] =>
      addGrad s c ((getNode s i).grad * (if (getNode s i).data > 0 then 1 else 0))
  | Op.sigmoid, [c] =>
      addGrad s c ((getNode s i).grad * (getNode s i).data * (1 - (getNode s i).data))
  | Op.exp, [c] => addGrad s c ((getNode s i).grad * (getNode s i).data)
  | Op.add, [c₁, c₂] =>
      addGrad (addGrad s c₁ ((getNode s i).grad * 1)) c₂
        ((getNode (addGrad s c₁ ((getNode s i).grad * 1)) i).grad * 1)
  | Op.mul, [c₁, c₂] =>
      addGrad (addGrad s c₁ ((getNode s i).grad * (getNode s c₂).data)) c₂
        ((getNode (addGrad s c₁ ((getNode s i).grad * (getNode s c₂).data)) i).grad
          * (getNode (addGrad s c₁ ((getNode s i).grad * (getNode s c₂).data)) c₁).data)
  | Op.pow p, [c] =>
      addGrad s c ((getNode s i).grad * (p : ℝ) * (getNode s c).data ^ (p - 1))
  | _, _ => s

/-- Fold a visit function over a list of children, threading the
visited/post-order accumulator (the `for c in v._children` loop of
`build_graph`). -/
def dfsRun (f : Nat → List Nat × List Nat → List Nat × List Nat) :
    List Nat → List Nat × List Nat → List Nat × List Nat
  | [], vo => vo
  | c :: cs, vo => dfsRun f cs (f c vo)

/-- The `build_graph` DFS of `Value.backward`: skip a node already in the
visited set, otherwise mark it visited, recurse into its children in order
and append the node to the post-order list.  Recursion is bounded by fuel;
because every child of a constructed node has a strictly smaller index,
fuel `v + 1` is always sufficient for a visit of `v` (the theorems below
carry this as the well-formedness hypothesis `WF`). -/
def dfsNode (s : State) : Nat → Nat → List Nat × List Nat → List Nat × List Nat
  | 0, _, vo => vo
  | fuel + 1, v, vo =>
    if v ∈ vo.1 then vo
    else
      let vo' := dfsRun (dfsNode s fuel) (childrenOf s v) (v :: vo.1, vo.2)
      (vo'.1, vo'.2 ++ [v])

/-- The post-order list `nodes` built by `Value.backward` before the
gradient loop. -/
def topo (s : State) (root : Nat) : List Nat :=
  (dfsNode s (root + 1) root ([], [])).2

/-- `Value.backward`: build the post-order list, seed `self.grad = 1.0`,
then invoke each recorded node's backward closure in reverse order. -/
noncomputable def backward (s : State) (root : Nat) : State :=
  List.foldl localBackward (updGrad s root 1) (topo s root).reverse

/-- Append a freshly constructed node to the arena and return its index. -/
def alloc (s : State) (n : Node) : State × Nat :=
  (⟨s.nodes ++ [n]⟩, size s)

/-- `Value(data)` on a plain number: a leaf with gradient `0`, no children
and a no-op backward closure. -/
def mkValue (s : State) (d : ℝ) : State × Nat :=
  alloc s ⟨d, 0, [], Op.leaf⟩

/-- `Value.__add__` on two existing nodes. -/
def addVV (s : State) (a b : Nat) : State × Nat :=
  alloc s ⟨dataOf s a + dataOf s b, 0, [a, b], Op.add⟩

/-- `Value.__add__` (equally `__radd__`) with a plain number: the number is
promoted to a fresh leaf which becomes the second child. -/
def addVC (s : State) (a : Nat) (r : ℝ) : State × Nat :=
  let p := mkValue s r
  addVV p.1 a p.2

/-- `Value.__mul__` on two existing nodes. -/
def mulVV (s : State) (a b : Nat) : State × Nat :=
  alloc s ⟨dataOf s a * dataOf s b, 0, [a, b], Op.mul⟩

/-- `Value.__mul__` (equally `__rmul__`) with a plain number, promoting it
to a fresh leaf. -/
def mulVC (s : State) (a : Nat) (r : ℝ) : State × Nat :=
  let p := mkValue s r
  mulVV p.1 a p.2

/-- `Value.__neg__`: `self.__mul__(-1)`, promoting `-1` to a leaf. -/
def negV (s : State) (a : Nat) : State × Nat :=
  mulVC s a (-1)

/-- `Value.__sub__` on two nodes: `self.__add__(-other)`. -/
def subVV (s : State) (a b : Nat) : State × Nat :=
  let p := negV s b
  addVV p.1 a p.2

/-- `Value.__sub__` with a plain number: promote, then `self + (-other)`. -/
def subVC (s : State) (a : Nat) (r : ℝ) : State × Nat :=
  let p := mkValue s r
  subVV p.1 a p.2

/-- `Value.__rsub__`: the source returns `self.__sub__(other)`, so the
reflected form `r - a` is evaluated as `a - r`. -/
def rsubV (s : State) (a : Nat) (r : ℝ) : State × Nat :=
  subVC s a r

/-- `Value.__pow__` with an integer exponent. -/
noncomputable def powV (s : State) (a : Nat) (p : ℤ) : State × Nat :=
  alloc s ⟨dataOf s a ^ p, 0, [a], Op.pow p⟩

/-- `Value.__truediv__` on two nodes: `self.__mul__(other.__pow__(-1))`. -/
noncomputable def divVV (s : State) (a b : Nat) : State × Nat :=
  let p := powV s b (-1)
  mulVV p.1 a p.2

/-- `Value.linear`. -/
def linearV (s : State) (a : Nat) : State × Nat :=
  alloc s ⟨dataOf s a, 0, [a], Op.linear⟩

/-- `Value.tanh`. -/
noncomputable def tanhV (s : State) (a : Nat) : State × Nat :=
  alloc s ⟨Real.tanh (dataOf s a), 0, [a], Op.tanh⟩

/-- `Value.leaky_relu`. -/
noncomputable def leakyReluV (s : State) (a : Nat) (alpha : ℝ) : State × Nat :=
  alloc s ⟨if dataOf s a > 0 then dataOf s a else dataOf s a * alpha, 0,
    [a], Op.leakyRelu alpha⟩

/-- `Value.relu`: forward `max(0, self.data)`. -/
def reluV (s : State) (a : Nat) : State × Nat :=
  alloc s ⟨max 0 (dataOf s a), 0, [a], Op.relu⟩

/-- `Value.sigmoid`: forward `1 / (1 + exp(-self.data))`. -/
noncomputable def sigmoidV (s : State) (a : Nat) : State × Nat :=
  alloc s ⟨1 / (1 + Real.exp (-dataOf s a)), 0, [a], Op.sigmoid⟩

/-- `Value.exp`. -/
noncomputable def expV (s : State) (a : Nat) : State × Nat :=
  alloc s ⟨Real.exp (dataOf s a), 0, [a], Op.exp⟩

/-- The construction-order invariant of the graph: every child of a
constructed node was constructed strictly earlier (smaller index), hence
the graph is acyclic. -/
def WF (s : State) : Prop :=
  ∀ i, i < size s → ∀ c ∈ childrenOf s i, c < i

/-- Reachability from a node through `children` edges (the subgraph
`Value.backward` traverses). -/
inductive Reaches (s : State) : Nat → Nat → Prop where
  | refl (v : Nat) : Reaches s v v
  | step {u v c : Nat} : Reaches s u v → c ∈ childrenOf s v → Reaches s u c

/-- `a` occurs strictly before `b` in the list `l`. -/
def Before (l : List Nat) (a b : Nat) : Prop :=
  ∃ i j, i < j ∧ l.get? i = some a ∧ l.get? j = some b

namespace Dyn

/-!
A second, Python-object-level embedding of the construction step, used for
the claims about dynamic-typing errors.  Here a `Value`'s `data` slot holds
an arbitrary Python object (the constructor performs no validation), an
operand may be a `Value`, a number, or a non-numeric object, and the
arithmetic on the stored objects can raise.  Only the operations those
claims mention are modelled: `__add__`, `__mul__`, `__pow__` and
`__truediv__`.
-/

/-- A Python object as far as the engine can observe it: a number
(`int`/`float`) or a non-numeric object such as a string. -/
inductive PyVal where
  | num (r : ℝ)
  | strv

/-- The exceptions the modelled operations can raise. -/
inductive PyErr where
  | typeError
  | zeroDivisionError
  | assertionError
deriving DecidableEq

/-- A `Value` at this level: arbitrary stored object, gradient, children. -/
structure DNode where
  data : PyVal
  grad : ℝ
  children : List Nat

/-- The arena of constructed `Value` objects. -/
structure DState where
  nodes : List DNode

/-- Number of nodes constructed so far. -/
def dsize (s : DState) : Nat := s.nodes.length

/-- Append a freshly constructed node, returning its index. -/
def dalloc (s : DState) (n : DNode) : DState × Nat :=
  (⟨s.nodes ++ [n]⟩, dsize s)

/-- Stored object of node `i`. -/
def ddataOf (s : DState) (i : Nat) : PyVal :=
  (s.nodes.getD i ⟨PyVal.num 0, 0, []⟩).data

/-- Python `+` on the stored objects: numbers add; a number plus a
non-numeric object raises `TypeError`.  (Concatenation of two non-numeric
objects is irrelevant: the engine adds a node's numeric `data`.) -/
def pyAdd : PyVal → PyVal → Except PyErr PyVal
  | PyVal.num a, PyVal.num b => Except.ok (PyVal.num (a + b))
  | _, _ => Except.error PyErr.typeError

/-- Python `*` on the stored objects, likewise.  (The `int * str`
repetition special case is not modelled; the engine only multiplies
numeric node data.) -/
def pyMul : PyVal → PyVal → Except PyErr PyVal
  | PyVal.num a, PyVal.num b => Except.ok (PyVal.num (a * b))
  | _, _ => Except.error PyErr.typeError

/-- Python `**` with a real exponent: `0.0 ** negative` raises
`ZeroDivisionError`, any other numeric base yields a number (real power);
a non-numeric base raises `TypeError`.  (A negative base with fractional
exponent yields a complex number in Python; that case is never reached
here.) -/
noncomputable def pyPow : PyVal → ℝ → Except PyErr PyVal
  | PyVal.num b, p =>
      if b = 0 ∧ p < 0 then Except.error PyErr.zeroDivisionError
      else Except.ok (PyVal.num (Real.rpow b p))
  | PyVal.strv, _ => Except.error PyErr.typeError

/-- An argument handed to an operator: an existing `Value` (by identity) or
a plain Python object. -/
inductive Operand where
  | node (i : Nat)
  | raw (v : PyVal)

/-- `Value.__add__`: a non-`Value` operand is first promoted with
`Value(other)` — allocating a node whatever the operand is — then
`self.data + other.data` is computed (which may raise) and only then the
result node is allocated.  The returned state is the arena as the call
leaves it, together with the result index or the exception. -/
def addD (s : DState) (i : Nat) (other : Operand) : DState × Except PyErr Nat :=
  match other with
  | Operand.node j =>
      match pyAdd (ddataOf s i) (ddataOf s j) with
      | Except.error e => (s, Except.error e)
      | Except.ok d =>
          let a := dalloc s ⟨d, 0, [i, j]⟩
          (a.1, Except.ok a.2)
  | Operand.raw v =>
      let p := dalloc s ⟨v, 0, []⟩
      match pyAdd (ddataOf s i) v with
      | Except.error e => (p.1, Except.error e)
      | Except.ok d =>
          let a := dalloc p.1 ⟨d, 0, [i, p.2]⟩
          (a.1, Except.ok a.2)

/-- `Value.__mul__`, with the same promotion-then-compute shape. -/
def mulD (s : DState) (i : Nat) (other : Operand) : DState × Except PyErr Nat :=
  match other with
  | Operand.node j =>
      match pyMul (ddataOf s i) (ddataOf s j) with
      | Except.error e => (s, Except.error e)
      | Except.ok d =>
          let a := dalloc s ⟨d, 0, [i, j]⟩
          (a.1, Except.ok a.2)
  | Operand.raw v =>
      let p := dalloc s ⟨v, 0, []⟩
      match pyMul (ddataOf s i) v with
      | Except.error e => (p.1, Except.error e)
      | Except.ok d =>
          let a := dalloc p.1 ⟨d, 0, [i, p.2]⟩
          (a.1, Except.ok a.2)

/-- `Value.__pow__`: `assert isinstance(power, (int, float))` fires before
anything is computed or allocated; with a numeric exponent the forward
value is computed (possibly raising `ZeroDivisionError`) and only then the
result node allocated. -/
noncomputable def powD (s : DState) (i : Nat) (power : Operand) :
    DState × Except PyErr Nat :=
  match power with
  | Operand.raw (PyVal.num p) =>
      match pyPow (ddataOf s i) p with
      | Except.error e => (s, Except.error e)
      | Except.ok d =>
          let a := dalloc s ⟨d, 0, [i]⟩
          (a.1, Except.ok a.2)
  | _ => (s, Except.error PyErr.assertionError)

/-- The body shared by `__truediv__` once the denominator is a node:
`self.__mul__(other.__pow__(-1))`. -/
noncomputable def divCore (s : DState) (i j : Nat) : DState × Except PyErr Nat :=
  match powD s j (Operand.raw (PyVal.num (-1))) with
  | (s', Except.error e) => (s', Except.error e)
  | (s', Except.ok k) => mulD s' i (Operand.node k)

/-- `Value.__truediv__`: `assert isinstance(other, (int, float, Value))`
fires first; a numeric operand is promoted to a leaf; then
`self.__mul__(other.__pow__(-1))`. -/
noncomputable def truedivD (s : DState) (i : Nat) (other : Operand) :
    DState × Except PyErr Nat :=
  match other with
  | Operand.raw PyVal.strv => (s, Except.error PyErr.assertionError)
  | Operand.raw (PyVal.num r) =>
      let p := dalloc s ⟨PyVal.num r, 0, []⟩
      divCore p.1 i p.2
  | Operand.node j => divCore s i j

end Dyn

/-- Two arenas with identical structure: the same length and, at every
index, identical `data`, `children` and operation tag; only gradients may
differ.  `backward` preserves shape in this sense. -/
def SameShape (s t : State) : Prop :=
  size t = size s
  ∧ ∀ j, dataOf t j = dataOf s j ∧ childrenOf t j = childrenOf s j
      ∧ opOf t j = opOf s j

/-- Invariant of the `(visited, nodes)` accumulator of `build_graph`:
the post-order list has no duplicates, is contained in the visited set,
and lists every recorded node strictly after all of its children. -/
structure DfsInv (s : State) (visited order : List Nat) : Prop where
  nodup : order.Nodup
  sub : ∀ x ∈ order, x ∈ visited
  sorted : ∀ u ∈ order, ∀ c ∈ childrenOf s u, Before order c u

/-- What one recursive `build_graph` visit of `v` guarantees, relating the
accumulator `vo` before the call to the accumulator `r` it returns. -/
structure DfsOut (s : State) (v : Nat) (vo r : List Nat × List Nat) : Prop where
  inv : DfsInv s r.1 r.2
  monoV : ∀ x ∈ vo.1, x ∈ r.1
  extO : ∃ t, r.2 = vo.2 ++ t
  stack : ∀ w, (w ∈ r.1 ∧ w ∉ r.2) ↔ (w ∈ vo.1 ∧ w ∉ vo.2)
  memV : v ∈ r.2
  newReach : ∀ w ∈ r.2, w ∈ vo.2 ∨ Reaches s v w
  reachVis : ∀ w, Reaches s v w → w ∈ r.1

/-- What the `for c in v._children` loop guarantees for a child list. -/
structure DfsRunOut (s : State) (cs : List Nat) (vo r : List Nat × List Nat) :
    Prop where
  inv : DfsInv s r.1 r.2
  monoV : ∀ x ∈ vo.1, x ∈ r.1
  extO : ∃ t, r.2 = vo.2 ++ t
  stack : ∀ w, (w ∈ r.1 ∧ w ∉ r.2) ↔ (w ∈ vo.1 ∧ w ∉ vo.2)
  memC : ∀ c ∈ cs, c ∈ r.2
  newReach : ∀ w ∈ r.2, w ∈ vo.2 ∨ ∃ c ∈ cs, Reaches s c w
  reachVis : ∀ c ∈ cs, ∀ w, Reaches s c w → w ∈ r.1

/-- Reading an appended list at the length of the prefix yields the first
appended element. -/
theorem getD_append_length {α} (l : List α) (x : α) (t : List α) (d : α) :
    (l ++ x :: t).getD l.length d = x := by
  induction l with
  | nil => rfl
  | cons a l ih => simpa using ih

/-- Reading two appended elements at `length + 1` yields the second. -/
theorem getD_append_length_succ {α} (l : List α) (x y : α) (d : α) :
    (l ++ [x, y]).getD (l.length + 1) d = y := by
  have h : l ++ [x, y] = (l ++ [x]) ++ [y] := by simp
  rw [h]
  simpa using getD_append_length (l ++ [x]) y [] d

/-- Claim C2: for a leaf `x` with gradient `0`, building
`z = sigmoid(x ** 2)` and calling `z.backward()` leaves `x.grad` equal to
the closed form `2 * x * (s * (1 - s))` with `s = 1 / (1 + exp (-x^2))`
(chain rule through the `__pow__` and `sigmoid` local-gradient rules; over
the reals the identity is exact). -/
theorem chain_rule_sigmoid_pow_c2 (x : ℝ) :
    gradOf (backward ((sigmoidV (powV (mkValue ⟨[]⟩ x).1 0 2).1 1).1) 2) 0
      = 2 * x * ((1 / (1 + Real.exp (-(x ^ 2)))) *
          (1 - 1 / (1 + Real.exp (-(x ^ 2))))) := by
  simp [backward, topo, dfsNode, dfsRun, childrenOf, getNode, mkValue, powV,
    sigmoidV, alloc, size, updGrad, addGrad, gradOf, dataOf, localBackward]
  have h2 : ((2 : ℤ) - 1) = 1 := by norm_num
  simp [h2, zpow_two]
  ring_nf

/-- Claim C8: `relu(x).data = max 0 x`, and after `backward` from the relu
node the parent's gradient is `1` if `x > 0` and `0` otherwise — in
particular `0` at exactly `x = 0` — even though the stored closure tests
the output `data = max 0 x` rather than the input. -/
theorem relu_forward_and_grad_c8 (x : ℝ) :
    dataOf ((reluV (mkValue ⟨[]⟩ x).1 0).1) 1 = max 0 x ∧
    gradOf (backward ((reluV (mkValue ⟨[]⟩ x).1 0).1) 1) 0
      = (if x > 0 then 1 else 0) := by
  constructor
  · simp [mkValue, reluV, alloc, dataOf, getNode, size]
  · simp [backward, topo, dfsNode, dfsRun, childrenOf, getNode, mkValue, reluV,
      alloc, size, updGrad, addGrad, gradOf, dataOf, localBackward]

/-- Claim C6, evaluation at the failing input: with `a = Value(3.0)` and
`r = 1.0`, the reflected subtraction `r - a` dispatches to
`Value.__rsub__`, which returns `self.__sub__(other)`; the produced node's
`data` is `a.data - r = 2.0`, not the `r - a.data = -2.0` the claim
requires. -/
theorem rsub_wrong_order_c6 :
    dataOf (rsubV (mkValue ⟨[]⟩ 3).1 0 1).1 (rsubV (mkValue ⟨[]⟩ 3).1 0 1).2 = 2
      ∧ ((2 : ℝ) ≠ 1 - 3) := by
  constructor
  · simp [rsubV, subVC, subVV, negV, mulVC, mulVV, addVV, mkValue, alloc,
      dataOf, getNode, size]
    norm_num
  · norm_num

/-- Claim C10: promoting a plain number in `__add__`/`__mul__` allocates a
fresh leaf — index `size s`, not previously in use — with `grad = 0`, no
children and the leaf tag; the result node lists it as second child; a
later promotion of the same literal gets a different index (no aliasing);
and on a concrete graph `backward` accumulates gradient `1` into the
hidden leaf created for `x + 5.0`. -/
theorem promotion_fresh_leaf_c10 :
    (∀ (s : State) (a : Nat) (r : ℝ),
      (addVC s a r).2 = size s + 1
      ∧ size (addVC s a r).1 = size s + 2
      ∧ childrenOf (addVC s a r).1 (addVC s a r).2 = [a, size s]
      ∧ getNode (addVC s a r).1 (size s) = ⟨r, 0, [], Op.leaf⟩
      ∧ (mulVC s a r).2 = size s + 1
      ∧ size (mulVC s a r).1 = size s + 2
      ∧ childrenOf (mulVC s a r).1 (mulVC s a r).2 = [a, size s]
      ∧ getNode (mulVC s a r).1 (size s) = ⟨r, 0, [], Op.leaf⟩
      ∧ (mkValue (addVC s a r).1 r).2 ≠ (mkValue s r).2)
    ∧ gradOf (backward (addVC (mkValue ⟨[]⟩ 3).1 0 5).1 2) 1 = 1 := by
  constructor
  · intro s a r
    have hadd : (addVC s a r).1.nodes
        = s.nodes ++ [⟨r, 0, [], Op.leaf⟩,
            ⟨dataOf (mkValue s r).1 a + dataOf (mkValue s r).1 (size s), 0,
              [a, size s], Op.add⟩] := by
      simp [addVC, addVV, mkValue, alloc, size]
    have hmul : (mulVC s a r).1.nodes
        = s.nodes ++ [⟨r, 0, [], Op.leaf⟩,
            ⟨dataOf (mkValue s r).1 a * dataOf (mkValue s r).1 (size s), 0,
              [a, size s], Op.mul⟩] := by
      simp [mulVC, mulVV, mkValue, alloc, size]
    refine ⟨by simp [addVC, addVV, mkValue, alloc, size], ?_, ?_, ?_,
      by simp [mulVC, mulVV, mkValue, alloc, size], ?_, ?_, ?_, ?_⟩
    · simp [size] at hadd ⊢
      simp [hadd]
    · have h := getD_append_length_succ s.nodes
        (⟨r, 0, [], Op.leaf⟩ : Node)
        (⟨dataOf (mkValue s r).1 a + dataOf (mkValue s r).1 (size s), 0,
          [a, size s], Op.add⟩ : Node) ⟨0, 0, [], Op.leaf⟩
      simp only [childrenOf, getNode, hadd]
      have h2 : (addVC s a r).2 = size s + 1 := by
        simp [addVC, addVV, mkValue, alloc, size]
      rw [h2]
      simp only [size] at h ⊢
      rw [h]
    · have h := getD_append_length s.nodes (⟨r, 0, [], Op.leaf⟩ : Node)
        [⟨dataOf (mkValue s r).1 a + dataOf (mkValue s r).1 (size s), 0,
          [a, size s], Op.add⟩] ⟨0, 0, [], Op.leaf⟩
      simp only [getNode, hadd, size]
      exact h
    · simp [size] at hmul ⊢
      simp [hmul]
    · have h := getD_append_length_succ s.nodes
        (⟨r, 0, [], Op.leaf⟩ : Node)
        (⟨dataOf (mkValue s r).1 a * dataOf (mkValue s r).1 (size s), 0,
          [a, size s], Op.mul⟩ : Node) ⟨0, 0, [], Op.leaf⟩
      simp only [childrenOf, getNode, hmul]
      have h2 : (mulVC s a r).2 = size s + 1 := by
        simp [mulVC, mulVV, mkValue, alloc, size]
      rw [h2]
      simp only [size] at h ⊢
      rw [h]
    · have h := getD_append_length s.nodes (⟨r, 0, [], Op.leaf⟩ : Node)
        [⟨dataOf (mkValue s r).1 a * dataOf (mkValue s r).1 (size s), 0,
          [a, size s], Op.mul⟩] ⟨0, 0, [], Op.leaf⟩
      simp only [getNode, hmul, size]
      exact h
    · simp [mkValue, alloc, addVC, addVV, size]
  · simp [backward, topo, dfsNode, dfsRun, childrenOf, getNode, mkValue,
      addVC, addVV, alloc, size, updGrad, addGrad, gradOf, dataOf,
      localBackward]

/-- Claim C5, counterexample: with `a = Value(1.0)` and `b = Value(0.0)`,
`a / b` does raise — `other.__pow__(-1)` evaluates `0.0 ** -1`, which in
Python raises `ZeroDivisionError` — so construction does not complete and
no infinite node is produced, contradicting the claim. -/
theorem div_by_zero_raises_c5_counterexample :
    (Dyn.truedivD ⟨[⟨Dyn.PyVal.num 1, 0, []⟩, ⟨Dyn.PyVal.num 0, 0, []⟩]⟩ 0
        (Dyn.Operand.node 1)).2
      = Except.error Dyn.PyErr.zeroDivisionError := by
  simp [Dyn.truedivD, Dyn.divCore, Dyn.powD, Dyn.pyPow, Dyn.ddataOf]

/-- Claim C5 amended: `divide(a, b)` with `b.data = 0` raises
`ZeroDivisionError` at construction time (from `b.data ** -1`), leaving
the arena unchanged, rather than completing with an IEEE infinity.  (The
`exp` half of the original claim concerns float range and is likewise a
raised `OverflowError` in Python, not an infinity; it is outside this
real-number model.) -/
theorem div_by_zero_raises_c5 (s : Dyn.DState) (a b : Nat)
    (hb : Dyn.ddataOf s b = Dyn.PyVal.num 0) :
    Dyn.truedivD s a (Dyn.Operand.node b)
      = (s, Except.error Dyn.PyErr.zeroDivisionError) := by
  simp [Dyn.truedivD, Dyn.divCore, Dyn.powD, Dyn.pyPow, hb]

/-- Witness for the amended claim C5 at the concrete arena
`[Value(1.0), Value(0.0)]`. -/
theorem div_by_zero_raises_c5_witness :
    Dyn.ddataOf ⟨[⟨Dyn.PyVal.num 1, 0, []⟩, ⟨Dyn.PyVal.num 0, 0, []⟩]⟩ 1
        = Dyn.PyVal.num 0
    ∧ Dyn.truedivD ⟨[⟨Dyn.PyVal.num 1, 0, []⟩, ⟨Dyn.PyVal.num 0, 0, []⟩]⟩ 0
        (Dyn.Operand.node 1)
      = (⟨[⟨Dyn.PyVal.num 1, 0, []⟩, ⟨Dyn.PyVal.num 0, 0, []⟩]⟩,
          Except.error Dyn.PyErr.zeroDivisionError) :=
  ⟨rfl, div_by_zero_raises_c5 _ 0 1 rfl⟩

/-- Claim C7, counterexample: `Value(2.0) + "s"` fails with `TypeError`,
but only after `Value(other)` has already allocated the promoted leaf: the
arena has grown from one node to two when the failure occurs, so the
failure does not happen "before any new Node has been created". -/
theorem invalid_operand_allocates_c7_counterexample :
    (Dyn.addD ⟨[⟨Dyn.PyVal.num 2, 0, []⟩]⟩ 0 (Dyn.Operand.raw Dyn.PyVal.strv)).2
      = Except.error Dyn.PyErr.typeError
    ∧ Dyn.dsize
        (Dyn.addD ⟨[⟨Dyn.PyVal.num 2, 0, []⟩]⟩ 0
          (Dyn.Operand.raw Dyn.PyVal.strv)).1 = 2 := by
  constructor
  · rfl
  · rfl

/-- Claim C7 amended: an invalid-operand failure aborts the operation
before the result node is created and never mutates an existing node's
fields; `__pow__` and `__truediv__` validate before allocating anything
(the state is returned untouched), while `__add__`/`__mul__` with a
non-Node, non-numeric operand first allocate the promoted leaf
`Value(other)` and then fail when computing the forward value, leaving the
arena extended by exactly that garbage leaf and every existing node
unchanged. -/
theorem invalid_operand_c7 (s : Dyn.DState) (i : Nat) :
    (∀ j, Dyn.powD s i (Dyn.Operand.node j)
        = (s, Except.error Dyn.PyErr.assertionError))
    ∧ Dyn.powD s i (Dyn.Operand.raw Dyn.PyVal.strv)
        = (s, Except.error Dyn.PyErr.assertionError)
    ∧ Dyn.truedivD s i (Dyn.Operand.raw Dyn.PyVal.strv)
        = (s, Except.error Dyn.PyErr.assertionError)
    ∧ (∀ x, Dyn.ddataOf s i = Dyn.PyVal.num x →
        Dyn.addD s i (Dyn.Operand.raw Dyn.PyVal.strv)
          = (⟨s.nodes ++ [⟨Dyn.PyVal.strv, 0, []⟩]⟩,
              Except.error Dyn.PyErr.typeError)
        ∧ Dyn.mulD s i (Dyn.Operand.raw Dyn.PyVal.strv)
          = (⟨s.nodes ++ [⟨Dyn.PyVal.strv, 0, []⟩]⟩,
              Except.error Dyn.PyErr.typeError)) := by
  refine ⟨fun j => rfl, rfl, rfl, fun x hx => ⟨?_, ?_⟩⟩
  · simp [Dyn.addD, Dyn.pyAdd, hx, Dyn.dalloc]
  · simp [Dyn.mulD, Dyn.pyMul, hx, Dyn.dalloc]

/-- Witness for the amended claim C7 at the concrete arena
`[Value(2.0)]`. -/
theorem invalid_operand_c7_witness :
    (∀ j, Dyn.powD ⟨[⟨Dyn.PyVal.num 2, 0, []⟩]⟩ 0 (Dyn.Operand.node j)
        = (⟨[⟨Dyn.PyVal.num 2, 0, []⟩]⟩, Except.error Dyn.PyErr.assertionError))
    ∧ (Dyn.addD ⟨[⟨Dyn.PyVal.num 2, 0, []⟩]⟩ 0 (Dyn.Operand.raw Dyn.PyVal.strv)
        = (⟨[⟨Dyn.PyVal.num 2, 0, []⟩, ⟨Dyn.PyVal.strv, 0, []⟩]⟩,
            Except.error Dyn.PyErr.typeError)) :=
  ⟨(invalid_operand_c7 ⟨[⟨Dyn.PyVal.num 2, 0, []⟩]⟩ 0).1,
    ((invalid_operand_c7 ⟨[⟨Dyn.PyVal.num 2, 0, []⟩]⟩ 0).2.2.2 2 rfl).1⟩

end TinyAutograd

namespace TinyAutograd

theorem size_updGrad (s : State) (i : Nat) (g : ℝ) :
    size (updGrad s i g) = size s := by
  simp [size, updGrad]

theorem getNode_updGrad (s : State) (i : Nat) (g : ℝ) (j : Nat) :
    getNode (updGrad s i g) j
      = if j = i ∧ i < size s then { getNode s i with grad := g }
        else getNode s j := by
  simp only [getNode, updGrad, List.getD_eq_getElem?_getD, List.getElem?_set,
    size]
  by_cases hj : j = i
  · subst hj
    by_cases hi : j < s.nodes.length
    · simp [hi]
    · simp [hi, List.getElem?_eq_none (Nat.le_of_not_lt hi)]
  · rw [if_neg (Ne.symm hj)]
    simp [hj]

theorem dataOf_updGrad (s : State) (i : Nat) (g : ℝ) (j : Nat) :
    dataOf (updGrad s i g) j = dataOf s j := by
  simp only [dataOf, getNode_updGrad]
  split
  · next h => rw [h.1]
  · rfl

theorem childrenOf_updGrad (s : State) (i : Nat) (g : ℝ) (j : Nat) :
    childrenOf (updGrad s i g) j = childrenOf s j := by
  simp only [childrenOf, getNode_updGrad]
  split
  · next h => rw [h.1]
  · rfl

theorem opOf_updGrad (s : State) (i : Nat) (g : ℝ) (j : Nat) :
    opOf (updGrad s i g) j = opOf s j := by
  simp only [opOf, getNode_updGrad]
  split
  · next h => rw [h.1]
  · rfl

theorem gradOf_updGrad_ne (s : State) (i : Nat) (g : ℝ) (j : Nat)
    (h : j ≠ i) : gradOf (updGrad s i g) j = gradOf s j := by
  simp only [gradOf, getNode_updGrad]
  rw [if_neg]
  intro hc
  exact h hc.1

theorem gradOf_updGrad_self (s : State) (i : Nat) (g : ℝ) (h : i < size s) :
    gradOf (updGrad s i g) i = g := by
  simp [gradOf, getNode_updGrad, h]

theorem updGrad_ge (s : State) (i : Nat) (g : ℝ) (h : size s ≤ i) :
    updGrad s i g = s := by
  cases s with
  | mk l =>
    simp only [updGrad]
    congr 1
    exact List.set_eq_of_length_le (by simpa [size] using h)

theorem set_getD_self {α} (l : List α) (i : Nat) (d : α) :
    l.set i (l.getD i d) = l := by
  induction l generalizing i with
  | nil => rfl
  | cons a l ih =>
    cases i with
    | zero => simp
    | succ n =>
      have h := ih n
      rw [List.getD_eq_getElem?_getD] at h
      simp [h]

theorem updGrad_self_grad (s : State) (i : Nat) :
    updGrad s i (gradOf s i) = s := by
  cases s with
  | mk l =>
    simp only [updGrad, gradOf, getNode]
    congr 1
    exact set_getD_self l i _

theorem updGrad_updGrad (s : State) (i : Nat) (a b : ℝ) :
    updGrad (updGrad s i a) i b = updGrad s i b := by
  have hval : { getNode (updGrad s i a) i with grad := b }
      = { getNode s i with grad := b } := by
    rw [getNode_updGrad]
    split
    · rfl
    · rfl
  show updGrad (updGrad s i a) i b = updGrad s i b
  cases s with
  | mk l =>
    simp only [updGrad] at hval ⊢
    rw [hval]
    congr 1
    exact List.set_set _ _ _ _

theorem updGrad_comm (s : State) (i j : Nat) (a b : ℝ) (h : i ≠ j) :
    updGrad (updGrad s i a) j b = updGrad (updGrad s j b) i a := by
  have hsz : size (updGrad s i a) = size s := size_updGrad s i a
  have hsz2 : size (updGrad s j b) = size s := size_updGrad s j b
  have hvj : { getNode (updGrad s i a) j with grad := b }
      = { getNode s j with grad := b } := by
    rw [getNode_updGrad, if_neg]
    intro hc
    exact h hc.1.symm
  have hvi : { getNode (updGrad s j b) i with grad := a }
      = { getNode s i with grad := a } := by
    rw [getNode_updGrad, if_neg]
    intro hc
    exact h hc.1
  cases s with
  | mk l =>
    simp only [updGrad] at hvj hvi ⊢
    rw [hvj, hvi]
    congr 1
    exact List.set_comm _ _ _ h

theorem size_addGrad (s : State) (i : Nat) (d : ℝ) :
    size (addGrad s i d) = size s := size_updGrad _ _ _

theorem dataOf_addGrad (s : State) (i : Nat) (d : ℝ) (j : Nat) :
    dataOf (addGrad s i d) j = dataOf s j := dataOf_updGrad _ _ _ _

theorem childrenOf_addGrad (s : State) (i : Nat) (d : ℝ) (j : Nat) :
    childrenOf (addGrad s i d) j = childrenOf s j := childrenOf_updGrad _ _ _ _

theorem opOf_addGrad (s : State) (i : Nat) (d : ℝ) (j : Nat) :
    opOf (addGrad s i d) j = opOf s j := opOf_updGrad _ _ _ _

theorem gradOf_addGrad_ne (s : State) (i : Nat) (d : ℝ) (j : Nat)
    (h : j ≠ i) : gradOf (addGrad s i d) j = gradOf s j :=
  gradOf_updGrad_ne _ _ _ _ h

theorem gradOf_addGrad_self (s : State) (i : Nat) (d : ℝ) (h : i < size s) :
    gradOf (addGrad s i d) i = gradOf s i + d :=
  gradOf_updGrad_self _ _ _ h

theorem addGrad_comm (s : State) (i j : Nat) (a b : ℝ) :
    addGrad (addGrad s i a) j b = addGrad (addGrad s j b) i a := by
  by_cases hij : i = j
  · subst hij
    by_cases hi : i < size s
    · simp only [addGrad]
      rw [gradOf_updGrad_self s i _ hi, gradOf_updGrad_self s i _ hi,
        updGrad_updGrad, updGrad_updGrad]
      ring_nf
    · have h1 : size s ≤ i := Nat.le_of_not_lt hi
      have he : ∀ (t : State) (c : ℝ), size t = size s → addGrad t i c = t := by
        intro t c ht
        rw [addGrad, updGrad_ge t i _ (ht ▸ h1)]
      have ha : addGrad (addGrad s i a) i b = s := by
        rw [he s a rfl, he s b rfl]
      have hb : addGrad (addGrad s i b) i a = s := by
        rw [he s b rfl, he s a rfl]
      rw [ha, hb]
  · simp only [addGrad]
    rw [gradOf_updGrad_ne s i _ j (Ne.symm hij),
      gradOf_updGrad_ne s j _ i hij, updGrad_comm _ _ _ _ _ hij]

theorem before_mem_left {l : List Nat} {a b : Nat} (h : Before l a b) :
    a ∈ l := by
  obtain ⟨i, j, _, ha, _⟩ := h
  exact List.get?_mem ha

theorem before_append {l : List Nat} (t : List Nat) {a b : Nat}
    (h : Before l a b) : Before (l ++ t) a b := by
  obtain ⟨i, j, hij, ha, hb⟩ := h
  have hi : i < l.length := (List.get?_eq_some.mp ha).1
  have hj : j < l.length := (List.get?_eq_some.mp hb).1
  exact ⟨i, j, hij, by rw [List.get?_append hi]; exact ha,
    by rw [List.get?_append hj]; exact hb⟩

theorem before_snoc {l : List Nat} {a : Nat} (b : Nat) (ha : a ∈ l) :
    Before (l ++ [b]) a b := by
  obtain ⟨i, hi⟩ := List.mem_iff_get?.mp ha
  have hlt : i < l.length := (List.get?_eq_some.mp hi).1
  refine ⟨i, l.length, hlt, by rw [List.get?_append hlt]; exact hi, ?_⟩
  rw [List.get?_append_right (le_refl _)]
  simp

theorem childrenOf_of_ge (s : State) (i : Nat) (h : size s ≤ i) :
    childrenOf s i = [] := by
  have : s.nodes[i]? = none :=
    List.getElem?_eq_none (by simpa [size] using h)
  simp [childrenOf, getNode, List.getD_eq_getElem?_getD, this]

theorem reaches_le {s : State} (hwf : WF s) {u v : Nat}
    (h : Reaches s u v) : v ≤ u := by
  induction h with
  | refl => exact le_refl _
  | @step v c hr hc ih =>
    by_cases hv : v < size s
    · exact le_of_lt (lt_of_lt_of_le (hwf v hv c hc) ih)
    · rw [childrenOf_of_ge s v (Nat.le_of_not_lt hv)] at hc
      exact absurd hc (List.not_mem_nil c)

theorem reaches_trans {s : State} {u v w : Nat} (h1 : Reaches s u v)
    (h2 : Reaches s v w) : Reaches s u w := by
  induction h2 with
  | refl => exact h1
  | step hr hc ih => exact Reaches.step ih hc

theorem reaches_child {s : State} {v c : Nat} (hc : c ∈ childrenOf s v) :
    Reaches s v c :=
  Reaches.step (Reaches.refl v) hc

theorem reaches_destruct {s : State} {u w : Nat} (h : Reaches s u w) :
    u = w ∨ ∃ c ∈ childrenOf s u, Reaches s c w := by
  induction h with
  | refl => exact Or.inl rfl
  | @step v c hr hc ih =>
    cases ih with
    | inl he =>
      subst he
      exact Or.inr ⟨c, hc, Reaches.refl c⟩
    | inr hex =>
      obtain ⟨c', hc', hr'⟩ := hex
      exact Or.inr ⟨c', hc', Reaches.step hr' hc⟩

theorem reaches_closed {s : State} {order : List Nat}
    (hcl : ∀ u ∈ order, ∀ c ∈ childrenOf s u, c ∈ order)
    {u : Nat} (hu : u ∈ order) {w : Nat} (h : Reaches s u w) : w ∈ order := by
  induction h with
  | refl => exact hu
  | step hr hc ih => exact hcl _ ih _ hc

theorem sameShape_refl (s : State) : SameShape s s :=
  ⟨rfl, fun _ => ⟨rfl, rfl, rfl⟩⟩

theorem sameShape_updGrad {s t : State} (i : Nat) (g : ℝ)
    (h : SameShape s t) : SameShape s (updGrad t i g) := by
  refine ⟨by rw [size_updGrad]; exact h.1, fun j => ?_⟩
  rw [dataOf_updGrad, childrenOf_updGrad, opOf_updGrad]
  exact h.2 j

theorem sameShape_addGrad {s t : State} (i : Nat) (d : ℝ)
    (h : SameShape s t) : SameShape s (addGrad t i d) :=
  sameShape_updGrad _ _ h

theorem sameShape_localBackward {s t : State} (i : Nat)
    (h : SameShape s t) : SameShape s (localBackward t i) := by
  unfold localBackward
  split
  · exact h
  · exact sameShape_addGrad _ _ h
  · exact sameShape_addGrad _ _ h
  · exact sameShape_addGrad _ _ h
  · exact sameShape_addGrad _ _ h
  · exact sameShape_addGrad _ _ h
  · exact sameShape_addGrad _ _ h
  · exact sameShape_addGrad _ _ (sameShape_addGrad _ _ h)
  · exact sameShape_addGrad _ _ (sameShape_addGrad _ _ h)
  · exact sameShape_addGrad _ _ h
  · exact h

theorem gradOf_localBackward_ne {t : State} (i : Nat) {j : Nat}
    (h : j ∉ childrenOf t i) : gradOf (localBackward t i) j = gradOf t j := by
  rw [childrenOf] at h
  unfold localBackward
  split
  all_goals try rfl
  all_goals rename_i heq
  all_goals rw [heq] at h
  all_goals simp only [List.mem_cons, List.not_mem_nil, or_false, not_or] at h
  all_goals first
    | exact gradOf_addGrad_ne _ _ _ _ h
    | (rw [gradOf_addGrad_ne _ _ _ _ h.2]
       exact gradOf_addGrad_ne _ _ _ _ h.1)

theorem sameShape_foldl {s : State} (l : List Nat) {t : State}
    (h : SameShape s t) : SameShape s (List.foldl localBackward t l) := by
  induction l generalizing t with
  | nil => exact h
  | cons n l ih => exact ih (sameShape_localBackward n h)

theorem backward_sameShape (s : State) (root : Nat) :
    SameShape s (backward s root) :=
  sameShape_foldl _ (sameShape_updGrad root 1 (sameShape_refl s))

theorem gradOf_foldl_frame {s : State} {root j : Nat}
    (hnr : ¬ Reaches s root j) :
    ∀ (l : List Nat), (∀ n ∈ l, Reaches s root n) → ∀ {t : State},
      SameShape s t → gradOf t j = gradOf s j →
      gradOf (List.foldl localBackward t l) j = gradOf s j := by
  intro l
  induction l with
  | nil =>
    intro _ t _ hg
    exact hg
  | cons n l ih =>
    intro hl t hsh hg
    have hnj : j ∉ childrenOf t n := by
      rw [(hsh.2 n).2.1]
      intro hmem
      exact hnr (Reaches.step (hl n (List.mem_cons_self n l)) hmem)
    exact ih (fun m hm => hl m (List.mem_cons_of_mem n hm))
      (sameShape_localBackward n hsh)
      ((gradOf_localBackward_ne n hnj).trans hg)

theorem gradOf_foldl_root_one {s : State} {root : Nat} (hwf : WF s)
    (hroot : root < size s) :
    ∀ (l : List Nat), (∀ n ∈ l, Reaches s root n) → ∀ {t : State},
      SameShape s t → gradOf t root = 1 →
      gradOf (List.foldl localBackward t l) root = 1 := by
  intro l
  induction l with
  | nil =>
    intro _ t _ hg
    exact hg
  | cons n l ih =>
    intro hl t hsh hg
    have hrn : Reaches s root n := hl n (List.mem_cons_self n l)
    have hnj : root ∉ childrenOf t n := by
      rw [(hsh.2 n).2.1]
      intro hmem
      have hn : n < size s := lt_of_le_of_lt (reaches_le hwf hrn) hroot
      exact absurd (hwf n hn root hmem)
        (not_lt_of_le (reaches_le hwf hrn))
    exact ih (fun m hm => hl m (List.mem_cons_of_mem n hm))
      (sameShape_localBackward n hsh)
      ((gradOf_localBackward_ne n hnj).trans hg)

theorem dfsRun_congr {f g : Nat → List Nat × List Nat → List Nat × List Nat}
    (h : ∀ c vo, f c vo = g c vo) :
    ∀ (cs : List Nat) (vo), dfsRun f cs vo = dfsRun g cs vo := by
  intro cs
  induction cs with
  | nil =>
    intro vo
    rfl
  | cons c cs ih =>
    intro vo
    rw [dfsRun, dfsRun, h, ih]

theorem dfsNode_congr {s t : State}
    (h : ∀ j, childrenOf t j = childrenOf s j) :
    ∀ (fuel v : Nat) (vo), dfsNode t fuel v vo = dfsNode s fuel v vo := by
  intro fuel
  induction fuel with
  | zero =>
    intro v vo
    rfl
  | succ fuel ih =>
    intro v vo
    simp only [dfsNode]
    by_cases hv : v ∈ vo.1
    · simp [hv]
    · simp only [hv, if_false]
      rw [h v, dfsRun_congr (fun c vo => ih c vo)]

theorem topo_congr {s t : State} (h : ∀ j, childrenOf t j = childrenOf s j)
    (root : Nat) : topo t root = topo s root := by
  unfold topo
  rw [dfsNode_congr h]

theorem getNode_addGrad_ne (s : State) (i : Nat) (d : ℝ) (j : Nat)
    (h : j ≠ i) : getNode (addGrad s i d) j = getNode s j := by
  rw [addGrad, getNode_updGrad, if_neg]
  intro hc
  exact h hc.1

theorem localBackward_of_children_nil {t : State} {i : Nat}
    (h : childrenOf t i = []) : localBackward t i = t := by
  rw [childrenOf] at h
  unfold localBackward
  split
  all_goals try rfl
  all_goals rename_i heq
  all_goals rw [heq] at h
  all_goals simp at h

theorem getNode_data_addGrad (s : State) (i : Nat) (d : ℝ) (j : Nat) :
    (getNode (addGrad s i d) j).data = (getNode s j).data :=
  dataOf_addGrad s i d j

theorem getNode_grad_addGrad_ne (s : State) (i : Nat) (d : ℝ) (j : Nat)
    (h : j ≠ i) : (getNode (addGrad s i d) j).grad = (getNode s j).grad :=
  gradOf_addGrad_ne s i d j h

theorem localBackward_addGrad_comm {t : State} {i : Nat} (g : ℝ)
    (hleaf : childrenOf t i = []) (n : Nat) :
    localBackward (addGrad t i g) n = addGrad (localBackward t n) i g := by
  by_cases hni : n = i
  · subst hni
    rw [localBackward_of_children_nil
        (by rw [childrenOf_addGrad]; exact hleaf),
      localBackward_of_children_nil hleaf]
  · have hgn : getNode (addGrad t i g) n = getNode t n :=
      getNode_addGrad_ne t i g n hni
    unfold localBackward
    rw [hgn]
    split
    all_goals try rfl
    all_goals try simp only [getNode_data_addGrad]
    all_goals first
      | exact addGrad_comm _ _ _ _ _
      | (rw [addGrad_comm t i _ g _,
          getNode_grad_addGrad_ne _ _ _ _ hni]
         exact addGrad_comm _ _ _ _ _)

theorem foldl_addGrad_comm (l : List Nat) {t : State} {i : Nat} (g : ℝ)
    (hleaf : childrenOf t i = []) :
    List.foldl localBackward (addGrad t i g) l
      = addGrad (List.foldl localBackward t l) i g := by
  induction l generalizing t with
  | nil => rfl
  | cons n l ih =>
    rw [List.foldl_cons, List.foldl_cons, localBackward_addGrad_comm g hleaf n]
    exact ih (((sameShape_localBackward n (sameShape_refl t)).2 i).2.1.trans hleaf)

theorem updGrad_addGrad_comm (s : State) {i root : Nat} (g : ℝ)
    (h : i ≠ root) :
    updGrad (addGrad s i g) root 1 = addGrad (updGrad s root 1) i g := by
  rw [addGrad, addGrad, gradOf_updGrad_ne s root 1 i h,
    updGrad_comm s i root _ 1 h]

theorem backward_addGrad {s : State} {root i : Nat} (g : ℝ)
    (hleaf : childrenOf s i = []) (hne : i ≠ root) :
    backward (addGrad s i g) root = addGrad (backward s root) i g := by
  unfold backward
  rw [topo_congr (fun j => childrenOf_addGrad s i g j) root,
    updGrad_addGrad_comm s g hne]
  exact foldl_addGrad_comm _ g
    ((childrenOf_updGrad s root 1 i).trans hleaf)

theorem dfsRunOut_nil {s : State} {vo : List Nat × List Nat}
    (hinv : DfsInv s vo.1 vo.2) : DfsRunOut s [] vo vo where
  inv := hinv
  monoV := fun _ hx => hx
  extO := ⟨[], by simp⟩
  stack := fun _ => Iff.rfl
  memC := fun c hc => absurd hc (List.not_mem_nil c)
  newReach := fun _ hw => Or.inl hw
  reachVis := fun c hc => absurd hc (List.not_mem_nil c)

theorem dfsRunOut_cons {s : State} {c : Nat} {cs : List Nat}
    {vo r₁ r₂ : List Nat × List Nat}
    (o₁ : DfsOut s c vo r₁) (o₂ : DfsRunOut s cs r₁ r₂) :
    DfsRunOut s (c :: cs) vo r₂ where
  inv := o₂.inv
  monoV := fun x hx => o₂.monoV x (o₁.monoV x hx)
  extO := by
    obtain ⟨t₁, h₁⟩ := o₁.extO
    obtain ⟨t₂, h₂⟩ := o₂.extO
    exact ⟨t₁ ++ t₂, by rw [h₂, h₁, List.append_assoc]⟩
  stack := fun w => (o₂.stack w).trans (o₁.stack w)
  memC := by
    intro c' hc'
    rcases List.mem_cons.mp hc' with rfl | h
    · obtain ⟨t₂, h₂⟩ := o₂.extO
      rw [h₂]
      exact List.mem_append_left _ o₁.memV
    · exact o₂.memC c' h
  newReach := by
    intro w hw
    rcases o₂.newReach w hw with h₁ | ⟨c', hc', hr⟩
    · rcases o₁.newReach w h₁ with h₀ | hr
      · exact Or.inl h₀
      · exact Or.inr ⟨c, List.mem_cons_self c cs, hr⟩
    · exact Or.inr ⟨c', List.mem_cons_of_mem c hc', hr⟩
  reachVis := by
    intro c' hc' w hr
    rcases List.mem_cons.mp hc' with rfl | h
    · exact o₂.monoV w (o₁.reachVis w hr)
    · exact o₂.reachVis c' h w hr

theorem dfsNode_spec {s : State} (hwf : WF s) :
    ∀ (fuel : Nat), ∀ (v : Nat) (vo : List Nat × List Nat), v < fuel →
      DfsInv s vo.1 vo.2 → (∀ w ∈ vo.1, w ∉ vo.2 → v < w) →
      DfsOut s v vo (dfsNode s fuel v vo) := by
  intro fuel
  induction fuel with
  | zero =>
    intro v vo hv
    exact absurd hv (Nat.not_lt_zero v)
  | succ fuel ih =>
    have run : ∀ (cs : List Nat) (vo : List Nat × List Nat),
        (∀ c ∈ cs, c < fuel) → DfsInv s vo.1 vo.2 →
        (∀ w ∈ vo.1, w ∉ vo.2 → ∀ c ∈ cs, c < w) →
        DfsRunOut s cs vo (dfsRun (dfsNode s fuel) cs vo) := by
      intro cs
      induction cs with
      | nil =>
        intro vo _ hinv _
        exact dfsRunOut_nil hinv
      | cons c cs ihc =>
        intro vo hlt hinv hstk
        rw [dfsRun]
        have o₁ := ih c vo (hlt c (List.mem_cons_self c cs)) hinv
          (fun w hw hnw => hstk w hw hnw c (List.mem_cons_self c cs))
        have hstk₂ : ∀ w ∈ (dfsNode s fuel c vo).1,
            w ∉ (dfsNode s fuel c vo).2 → ∀ c' ∈ cs, c' < w := by
          intro w hw hnw c' hc'
          have h := (o₁.stack w).mp ⟨hw, hnw⟩
          exact hstk w h.1 h.2 c' (List.mem_cons_of_mem c hc')
        have o₂ := ihc (dfsNode s fuel c vo)
          (fun c' hc' => hlt c' (List.mem_cons_of_mem c hc')) o₁.inv hstk₂
        exact dfsRunOut_cons o₁ o₂
    intro v vo hv hinv hstk
    by_cases hmem : v ∈ vo.1
    · have hres : dfsNode s (fuel + 1) v vo = vo := by
        simp [dfsNode, hmem]
      rw [hres]
      have hv2 : v ∈ vo.2 := by
        by_contra hv2
        exact absurd (hstk v hmem hv2) (lt_irrefl v)
      have hcl : ∀ u ∈ vo.2, ∀ c ∈ childrenOf s u, c ∈ vo.2 :=
        fun u hu c hc => before_mem_left (hinv.sorted u hu c hc)
      exact {
        inv := hinv
        monoV := fun _ hx => hx
        extO := ⟨[], by simp⟩
        stack := fun _ => Iff.rfl
        memV := hv2
        newReach := fun _ hw => Or.inl hw
        reachVis := fun w hr => hinv.sub w (reaches_closed hcl hv2 hr) }
    · have hchlt : ∀ c ∈ childrenOf s v, c < fuel ∧ c < v := by
        intro c hc
        by_cases hvs : v < size s
        · have hcv := hwf v hvs c hc
          exact ⟨lt_of_lt_of_le hcv (Nat.lt_succ_iff.mp hv), hcv⟩
        · rw [childrenOf_of_ge s v (Nat.le_of_not_lt hvs)] at hc
          exact absurd hc (List.not_mem_nil c)
      have hinv₁ : DfsInv s (v :: vo.1) vo.2 :=
        ⟨hinv.nodup, fun x hx => List.mem_cons_of_mem v (hinv.sub x hx),
          hinv.sorted⟩
      have hstk₁ : ∀ w ∈ (v :: vo.1, vo.2).1, w ∉ (v :: vo.1, vo.2).2 →
          ∀ c ∈ childrenOf s v, c < w := by
        intro w hw hnw c hc
        rcases List.mem_cons.mp hw with rfl | hw'
        · exact (hchlt c hc).2
        · exact lt_trans (hchlt c hc).2 (hstk w hw' hnw)
      have orun := run (childrenOf s v) (v :: vo.1, vo.2)
        (fun c hc => (hchlt c hc).1) hinv₁ hstk₁
      have hres : dfsNode s (fuel + 1) v vo
          = ((dfsRun (dfsNode s fuel) (childrenOf s v) (v :: vo.1, vo.2)).1,
             (dfsRun (dfsNode s fuel) (childrenOf s v) (v :: vo.1, vo.2)).2
               ++ [v]) := by
        simp [dfsNode, hmem]
      rw [hres]
      have hvnotr2 :
          v ∉ (dfsRun (dfsNode s fuel) (childrenOf s v) (v :: vo.1, vo.2)).2 := by
        intro hv2
        rcases orun.newReach v hv2 with h₀ | ⟨c, hc, hrch⟩
        · exact hmem (hinv.sub v h₀)
        · exact absurd (reaches_le hwf hrch) (not_le_of_lt (hchlt c hc).2)
      have hvr1 :
          v ∈ (dfsRun (dfsNode s fuel) (childrenOf s v) (v :: vo.1, vo.2)).1 :=
        orun.monoV v (List.mem_cons_self v vo.1)
      refine {
        inv := ⟨?_, ?_, ?_⟩
        monoV := fun x hx => orun.monoV x (List.mem_cons_of_mem v hx)
        extO := ?_
        stack := ?_
        memV := List.mem_append_right _ (List.mem_singleton.mpr rfl)
        newReach := ?_
        reachVis := ?_ }
      · rw [List.nodup_append]
        refine ⟨orun.inv.nodup, List.nodup_singleton v, fun a ha hb => ?_⟩
        rw [List.mem_singleton.mp hb] at ha
        exact hvnotr2 ha
      · intro x hx
        rcases List.mem_append.mp hx with hx' | hx'
        · exact orun.inv.sub x hx'
        · rw [List.mem_singleton.mp hx']
          exact hvr1
      · intro u hu c hc
        rcases List.mem_append.mp hu with hu' | hu'
        · exact before_append _ (orun.inv.sorted u hu' c hc)
        · rw [List.mem_singleton.mp hu'] at hc ⊢
          exact before_snoc v (orun.memC c hc)
      · obtain ⟨t, ht⟩ := orun.extO
        exact ⟨t ++ [v], by rw [ht]; simp⟩
      · intro w
        constructor
        · intro ⟨hw1, hw2⟩
          have hwv : w ≠ v := by
            intro he
            exact hw2 (he ▸ List.mem_append_right _ (List.mem_singleton.mpr rfl))
          have hw2' : w ∉ (dfsRun (dfsNode s fuel) (childrenOf s v)
              (v :: vo.1, vo.2)).2 :=
            fun hm => hw2 (List.mem_append_left _ hm)
          have h := (orun.stack w).mp ⟨hw1, hw2'⟩
          exact ⟨(List.mem_cons.mp h.1).resolve_left hwv, h.2⟩
        · intro ⟨hw1, hw2⟩
          have hwv : w ≠ v := fun he => hmem (he ▸ hw1)
          have h := (orun.stack w).mpr ⟨List.mem_cons_of_mem v hw1, hw2⟩
          refine ⟨h.1, fun hm => ?_⟩
          rcases List.mem_append.mp hm with hm' | hm'
          · exact h.2 hm'
          · exact hwv (List.mem_singleton.mp hm')
      · intro w hw
        rcases List.mem_append.mp hw with hw' | hw'
        · rcases orun.newReach w hw' with h₀ | ⟨c, hc, hr⟩
          · exact Or.inl h₀
          · exact Or.inr (reaches_trans (reaches_child hc) hr)
        · rw [List.mem_singleton.mp hw']
          exact Or.inr (Reaches.refl v)
      · intro w hr
        rcases reaches_destruct hr with rfl | ⟨c, hc, hr'⟩
        · exact hvr1
        · exact orun.reachVis c hc w hr'

theorem topo_spec {s : State} (hwf : WF s) (root : Nat) :
    (topo s root).Nodup
    ∧ (∀ n, n ∈ topo s root ↔ Reaches s root n)
    ∧ ∀ u ∈ topo s root, ∀ c ∈ childrenOf s u, Before (topo s root) c u := by
  have h := dfsNode_spec hwf (root + 1) root ([], [])
    (Nat.lt_succ_self root)
    ⟨List.nodup_nil, fun x hx => absurd hx (List.not_mem_nil x),
      fun u hu => absurd hu (List.not_mem_nil u)⟩
    (fun w hw => absurd hw (List.not_mem_nil w))
  refine ⟨h.inv.nodup, fun n => ⟨?_, ?_⟩, h.inv.sorted⟩
  · intro hn
    rcases h.newReach n hn with h₀ | hr
    · exact absurd h₀ (List.not_mem_nil n)
    · exact hr
  · intro hr
    have h₁ := h.reachVis n hr
    by_contra hn2
    exact absurd ((h.stack n).mp ⟨h₁, hn2⟩).1 (List.not_mem_nil n)

/-- Claim C1: `Value.backward` records each node reachable from the root
through `children` exactly once, in a post-order list `topo` (membership is
exactly reachability and the list has no duplicates); every child occurs
strictly before its parent in the list, so in the reversed processing
order every recorded node that uses `N` as an input runs strictly before
`N`; the gradient loop is precisely the fold of the stored backward
closures over that reversed list, so each reachable node's closure runs
exactly once and a diamond-shared node has received the summed `+=`
contributions of all its users before it distributes gradient to its own
children. -/
theorem backward_order_c1 (s : State) (root : Nat) (hwf : WF s) :
    (topo s root).Nodup
    ∧ (∀ n, n ∈ topo s root ↔ Reaches s root n)
    ∧ (∀ u ∈ topo s root, ∀ c ∈ childrenOf s u, Before (topo s root) c u)
    ∧ backward s root
        = List.foldl localBackward (updGrad s root 1) (topo s root).reverse := by
  exact ⟨(topo_spec hwf root).1, (topo_spec hwf root).2.1,
    (topo_spec hwf root).2.2, rfl⟩

/-- Witness for claim C1 on a diamond graph
`x = Value(2); a = x.relu(); b = x.linear(); out = a + b`. -/
theorem backward_order_c1_witness :
    WF ⟨[⟨2, 0, [], Op.leaf⟩, ⟨2, 0, [0], Op.relu⟩, ⟨2, 0, [0], Op.linear⟩,
        ⟨4, 0, [1, 2], Op.add⟩]⟩
    ∧ ((topo ⟨[⟨2, 0, [], Op.leaf⟩, ⟨2, 0, [0], Op.relu⟩,
          ⟨2, 0, [0], Op.linear⟩, ⟨4, 0, [1, 2], Op.add⟩]⟩ 3).Nodup
      ∧ (∀ n, n ∈ topo ⟨[⟨2, 0, [], Op.leaf⟩, ⟨2, 0, [0], Op.relu⟩,
            ⟨2, 0, [0], Op.linear⟩, ⟨4, 0, [1, 2], Op.add⟩]⟩ 3
          ↔ Reaches ⟨[⟨2, 0, [], Op.leaf⟩, ⟨2, 0, [0], Op.relu⟩,
              ⟨2, 0, [0], Op.linear⟩, ⟨4, 0, [1, 2], Op.add⟩]⟩ 3 n)
      ∧ (∀ u ∈ topo ⟨[⟨2, 0, [], Op.leaf⟩, ⟨2, 0, [0], Op.relu⟩,
            ⟨2, 0, [0], Op.linear⟩, ⟨4, 0, [1, 2], Op.add⟩]⟩ 3,
          ∀ c ∈ childrenOf ⟨[⟨2, 0, [], Op.leaf⟩, ⟨2, 0, [0], Op.relu⟩,
              ⟨2, 0, [0], Op.linear⟩, ⟨4, 0, [1, 2], Op.add⟩]⟩ u,
            Before (topo ⟨[⟨2, 0, [], Op.leaf⟩, ⟨2, 0, [0], Op.relu⟩,
              ⟨2, 0, [0], Op.linear⟩, ⟨4, 0, [1, 2], Op.add⟩]⟩ 3) c u)
      ∧ backward ⟨[⟨2, 0, [], Op.leaf⟩, ⟨2, 0, [0], Op.relu⟩,
            ⟨2, 0, [0], Op.linear⟩, ⟨4, 0, [1, 2], Op.add⟩]⟩ 3
          = List.foldl localBackward
              (updGrad ⟨[⟨2, 0, [], Op.leaf⟩, ⟨2, 0, [0], Op.relu⟩,
                ⟨2, 0, [0], Op.linear⟩, ⟨4, 0, [1, 2], Op.add⟩]⟩ 3 1)
              (topo ⟨[⟨2, 0, [], Op.leaf⟩, ⟨2, 0, [0], Op.relu⟩,
                ⟨2, 0, [0], Op.linear⟩, ⟨4, 0, [1, 2], Op.add⟩]⟩ 3).reverse) :=
  ⟨by unfold WF; decide, backward_order_c1 _ 3 (by unfold WF; decide)⟩

/-- Claim C9: `backward` preserves the arena size and, at every index, the
`data`, `children` and operation tag; the gradient of every node not
reachable from the root is unchanged — only reachable nodes' gradients are
mutated. -/
theorem backward_frame_c9 (s : State) (root : Nat) (hwf : WF s) :
    size (backward s root) = size s
    ∧ (∀ j, dataOf (backward s root) j = dataOf s j
        ∧ childrenOf (backward s root) j = childrenOf s j
        ∧ opOf (backward s root) j = opOf s j)
    ∧ ∀ j, ¬ Reaches s root j → gradOf (backward s root) j = gradOf s j := by
  refine ⟨(backward_sameShape s root).1, (backward_sameShape s root).2, ?_⟩
  intro j hnr
  unfold backward
  apply gradOf_foldl_frame hnr
  · intro n hn
    rw [List.mem_reverse] at hn
    exact ((topo_spec hwf root).2.1 n).mp hn
  · exact sameShape_updGrad root 1 (sameShape_refl s)
  · apply gradOf_updGrad_ne
    intro he
    rw [he] at hnr
    exact hnr (Reaches.refl root)

/-- Witness for claim C9 on `x = Value(2); a = x.relu(); out = a + x` with
an unreachable extra node. -/
theorem backward_frame_c9_witness :
    WF ⟨[⟨2, 0, [], Op.leaf⟩, ⟨2, 0, [0], Op.relu⟩, ⟨4, 0, [1, 0], Op.add⟩,
        ⟨7, 5, [0], Op.linear⟩]⟩
    ∧ (size (backward ⟨[⟨2, 0, [], Op.leaf⟩, ⟨2, 0, [0], Op.relu⟩,
          ⟨4, 0, [1, 0], Op.add⟩, ⟨7, 5, [0], Op.linear⟩]⟩ 2)
        = size ⟨[⟨2, 0, [], Op.leaf⟩, ⟨2, 0, [0], Op.relu⟩,
            ⟨4, 0, [1, 0], Op.add⟩, ⟨7, 5, [0], Op.linear⟩]⟩
      ∧ (∀ j, dataOf (backward ⟨[⟨2, 0, [], Op.leaf⟩, ⟨2, 0, [0], Op.relu⟩,
            ⟨4, 0, [1, 0], Op.add⟩, ⟨7, 5, [0], Op.linear⟩]⟩ 2) j
          = dataOf ⟨[⟨2, 0, [], Op.leaf⟩, ⟨2, 0, [0], Op.relu⟩,
              ⟨4, 0, [1, 0], Op.add⟩, ⟨7, 5, [0], Op.linear⟩]⟩ j
        ∧ childrenOf (backward ⟨[⟨2, 0, [], Op.leaf⟩, ⟨2, 0, [0], Op.relu⟩,
            ⟨4, 0, [1, 0], Op.add⟩, ⟨7, 5, [0], Op.linear⟩]⟩ 2) j
          = childrenOf ⟨[⟨2, 0, [], Op.leaf⟩, ⟨2, 0, [0], Op.relu⟩,
              ⟨4, 0, [1, 0], Op.add⟩, ⟨7, 5, [0], Op.linear⟩]⟩ j
        ∧ opOf (backward ⟨[⟨2, 0, [], Op.leaf⟩, ⟨2, 0, [0], Op.relu⟩,
            ⟨4, 0, [1, 0], Op.add⟩, ⟨7, 5, [0], Op.linear⟩]⟩ 2) j
          = opOf ⟨[⟨2, 0, [], Op.leaf⟩, ⟨2, 0, [0], Op.relu⟩,
              ⟨4, 0, [1, 0], Op.add⟩, ⟨7, 5, [0], Op.linear⟩]⟩ j)
      ∧ ∀ j, ¬ Reaches ⟨[⟨2, 0, [], Op.leaf⟩, ⟨2, 0, [0], Op.relu⟩,
            ⟨4, 0, [1, 0], Op.add⟩, ⟨7, 5, [0], Op.linear⟩]⟩ 2 j →
          gradOf (backward ⟨[⟨2, 0, [], Op.leaf⟩, ⟨2, 0, [0], Op.relu⟩,
              ⟨4, 0, [1, 0], Op.add⟩, ⟨7, 5, [0], Op.linear⟩]⟩ 2) j
            = gradOf ⟨[⟨2, 0, [], Op.leaf⟩, ⟨2, 0, [0], Op.relu⟩,
                ⟨4, 0, [1, 0], Op.add⟩, ⟨7, 5, [0], Op.linear⟩]⟩ j) :=
  ⟨by unfold WF; decide, backward_frame_c9 _ 2 (by unfold WF; decide)⟩

/-- Claim C3: for a leaf `x` distinct from the second root, a second
`backward()` call without resetting gradients ADDS its own contribution —
the gradient the second pass would produce had `x` started at `0` — to the
value accumulated by the first call, rather than replacing it. -/
theorem backward_accumulates_c3 (s : State) (z₁ z₂ x : Nat)
    (hleaf : childrenOf s x = []) (hne : x ≠ z₂) (hx : x < size s) :
    gradOf (backward (backward s z₁) z₂) x
      = gradOf (backward s z₁) x
        + gradOf (backward (updGrad (backward s z₁) x 0) z₂) x := by
  have hleaf' : childrenOf (backward s z₁) x = [] :=
    ((backward_sameShape s z₁).2 x).2.1.trans hleaf
  have hsz : x < size (backward s z₁) := by
    rw [(backward_sameShape s z₁).1]
    exact hx
  have hdec : backward s z₁
      = addGrad (updGrad (backward s z₁) x 0) x (gradOf (backward s z₁) x) := by
    rw [addGrad, gradOf_updGrad_self _ x 0 hsz, updGrad_updGrad, zero_add,
      updGrad_self_grad]
  have hstep : backward (backward s z₁) z₂
      = addGrad (backward (updGrad (backward s z₁) x 0) z₂) x
          (gradOf (backward s z₁) x) := by
    conv_lhs => rw [hdec]
    exact backward_addGrad _ ((childrenOf_updGrad _ x 0 x).trans hleaf') hne
  rw [hstep, gradOf_addGrad_self]
  · ring
  · rw [(backward_sameShape _ z₂).1, size_updGrad]
    exact hsz

/-- Witness for claim C3, replaying `test_neg_sub` of the repository's test
suite: `x = Value(3); y = Value(2); z = x - y; z.backward(); n = -x;
n.backward()`; the two contributions `+1` and `-1` to `x.grad` cancel to
exactly `0`. -/
theorem backward_accumulates_c3_witness :
    childrenOf ⟨[⟨3, 0, [], Op.leaf⟩, ⟨2, 0, [], Op.leaf⟩,
        ⟨-1, 0, [], Op.leaf⟩, ⟨-2, 0, [1, 2], Op.mul⟩,
        ⟨1, 0, [0, 3], Op.add⟩, ⟨-1, 0, [], Op.leaf⟩,
        ⟨-3, 0, [0, 5], Op.mul⟩]⟩ 0 = []
    ∧ (0 : Nat) ≠ 6
    ∧ 0 < size ⟨[⟨3, 0, [], Op.leaf⟩, ⟨2, 0, [], Op.leaf⟩,
        ⟨-1, 0, [], Op.leaf⟩, ⟨-2, 0, [1, 2], Op.mul⟩,
        ⟨1, 0, [0, 3], Op.add⟩, ⟨-1, 0, [], Op.leaf⟩,
        ⟨-3, 0, [0, 5], Op.mul⟩]⟩
    ∧ gradOf (backward (backward ⟨[⟨3, 0, [], Op.leaf⟩, ⟨2, 0, [], Op.leaf⟩,
          ⟨-1, 0, [], Op.leaf⟩, ⟨-2, 0, [1, 2], Op.mul⟩,
          ⟨1, 0, [0, 3], Op.add⟩, ⟨-1, 0, [], Op.leaf⟩,
          ⟨-3, 0, [0, 5], Op.mul⟩]⟩ 4) 6) 0
        = gradOf (backward ⟨[⟨3, 0, [], Op.leaf⟩, ⟨2, 0, [], Op.leaf⟩,
            ⟨-1, 0, [], Op.leaf⟩, ⟨-2, 0, [1, 2], Op.mul⟩,
            ⟨1, 0, [0, 3], Op.add⟩, ⟨-1, 0, [], Op.leaf⟩,
            ⟨-3, 0, [0, 5], Op.mul⟩]⟩ 4) 0
          + gradOf (backward (updGrad (backward ⟨[⟨3, 0, [], Op.leaf⟩,
              ⟨2, 0, [], Op.leaf⟩, ⟨-1, 0, [], Op.leaf⟩,
              ⟨-2, 0, [1, 2], Op.mul⟩, ⟨1, 0, [0, 3], Op.add⟩,
              ⟨-1, 0, [], Op.leaf⟩, ⟨-3, 0, [0, 5], Op.mul⟩]⟩ 4) 0 0) 6) 0
    ∧ gradOf (backward (backward ⟨[⟨3, 0, [], Op.leaf⟩, ⟨2, 0, [], Op.leaf⟩,
          ⟨-1, 0, [], Op.leaf⟩, ⟨-2, 0, [1, 2], Op.mul⟩,
          ⟨1, 0, [0, 3], Op.add⟩, ⟨-1, 0, [], Op.leaf⟩,
          ⟨-3, 0, [0, 5], Op.mul⟩]⟩ 4) 6) 0 = 0 :=
  ⟨rfl, by decide, by norm_num [size],
    backward_accumulates_c3 _ 4 6 0 rfl (by decide) (by norm_num [size]),
    by
      simp [backward, topo, dfsNode, dfsRun, childrenOf, getNode, updGrad,
        addGrad, gradOf, dataOf, localBackward, size]⟩

/-- Claim C4, counterexample: on the chain
`x = Value(3); z = x.linear(); w = z.linear()`, two calls of
`w.backward()` accumulate `z.grad = 2`; a subsequent `z.backward()` leaves
`z.grad = 1` — the seed `self.grad = 1.0` is an assignment that replaced
the accumulated `2`, so `backward` does overwrite an already-accumulated
gradient (of its root), refuting "no operation ever overwrites or resets
an already-accumulated grad value of any node". -/
theorem grad_overwrite_c4_counterexample :
    gradOf (backward (backward ⟨[⟨3, 0, [], Op.leaf⟩, ⟨3, 0, [0], Op.linear⟩,
        ⟨3, 0, [1], Op.linear⟩]⟩ 2) 2) 1 = 2
    ∧ gradOf (backward (backward (backward ⟨[⟨3, 0, [], Op.leaf⟩,
        ⟨3, 0, [0], Op.linear⟩, ⟨3, 0, [1], Op.linear⟩]⟩ 2) 2) 1) 1 = 1 := by
  constructor
  · simp [backward, topo, dfsNode, dfsRun, childrenOf, getNode, updGrad,
      addGrad, gradOf, dataOf, localBackward, size]
    norm_num
  · simp [backward, topo, dfsNode, dfsRun, childrenOf, getNode, updGrad,
      addGrad, gradOf, dataOf, localBackward, size]

/-- Claim C4 amended: `grad` is `0` at construction (shown for the leaf
constructor); during `Backward(root)` every mutation of a non-root node's
gradient is a `+=` accumulation — bumping a leaf's prior gradient by `g`
bumps its final gradient by exactly `g` — but the root's own gradient is
seeded by the assignment `self.grad = 1.0`, overwriting whatever had been
accumulated there, so after the call the root's gradient is exactly `1`
regardless of its prior value. -/
theorem grad_seed_and_accumulation_c4 (s : State) (root : Nat) (hwf : WF s)
    (hroot : root < size s) :
    gradOf (backward s root) root = 1
    ∧ (∀ d, gradOf (mkValue s d).1 (mkValue s d).2 = 0)
    ∧ (∀ i g, childrenOf s i = [] → i ≠ root →
        backward (addGrad s i g) root = addGrad (backward s root) i g) := by
  refine ⟨?_, ?_, fun i g hleaf hne => backward_addGrad g hleaf hne⟩
  · unfold backward
    apply gradOf_foldl_root_one hwf hroot
    · intro n hn
      rw [List.mem_reverse] at hn
      exact ((topo_spec hwf root).2.1 n).mp hn
    · exact sameShape_updGrad root 1 (sameShape_refl s)
    · exact gradOf_updGrad_self s root 1 hroot
  · intro d
    have h := getD_append_length s.nodes (⟨d, 0, [], Op.leaf⟩ : Node) []
      ⟨0, 0, [], Op.leaf⟩
    simp only [mkValue, alloc, gradOf, getNode, size]
    rw [h]

/-- Witness for the amended claim C4 on the chain
`x = Value(3); z = x.linear()` with root `z` whose gradient already holds
`5`: after `backward` the root's gradient is exactly `1`. -/
theorem grad_seed_and_accumulation_c4_witness :
    WF ⟨[⟨3, 0, [], Op.leaf⟩, ⟨3, 5, [0], Op.linear⟩]⟩
    ∧ 1 < size ⟨[⟨3, 0, [], Op.leaf⟩, ⟨3, 5, [0], Op.linear⟩]⟩
    ∧ (gradOf (backward ⟨[⟨3, 0, [], Op.leaf⟩, ⟨3, 5, [0], Op.linear⟩]⟩ 1) 1 = 1
      ∧ (∀ d, gradOf (mkValue ⟨[⟨3, 0, [], Op.leaf⟩,
          ⟨3, 5, [0], Op.linear⟩]⟩ d).1
            (mkValue ⟨[⟨3, 0, [], Op.leaf⟩, ⟨3, 5, [0], Op.linear⟩]⟩ d).2 = 0)
      ∧ (∀ i g, childrenOf ⟨[⟨3, 0, [], Op.leaf⟩,
            ⟨3, 5, [0], Op.linear⟩]⟩ i = [] → i ≠ 1 →
          backward (addGrad ⟨[⟨3, 0, [], Op.leaf⟩,
              ⟨3, 5, [0], Op.linear⟩]⟩ i g) 1
            = addGrad (backward ⟨[⟨3, 0, [], Op.leaf⟩,
                ⟨3, 5, [0], Op.linear⟩]⟩ 1) i g)) :=
  ⟨by unfold WF; decide, by norm_num [size],
    grad_seed_and_accumulation_c4 _ 1 (by unfold WF; decide)
      (by norm_num [size])⟩

end TinyAutograd
